import Mathlib

/-!
Verification of the streaming transcription service
(`src/services/asr_streaming/app.py`) against its specification.

The Python source is shallowly embedded: times and audio samples are
modelled as exact rationals `ℚ` (the source uses floating-point seconds
and normalized float samples), speaker-embedding vectors as `List ℝ`
(cosine similarity divides by `sqrt`-norms, so it lives in `ℝ`), and the
external ML primitives (Silero VAD, Whisper, pyannote embedding) as
oracle function parameters.  Fallible external calls are oracles
returning `Option`; a `none` result models a raised exception caught by
the surrounding `try/except`.  Python string operations used by the
hallucination filter are re-implemented structurally over `List Char`
so that all definitions compute.
-/

namespace AsrStreaming

/-- Python's `str.strip()` on the underlying character list: drop leading
and trailing whitespace. -/
def stripChars (l : List Char) : List Char :=
  ((l.dropWhile Char.isWhitespace).reverse.dropWhile Char.isWhitespace).reverse

/-- Python's `str.strip()` : `text.strip()`. -/
def pyStrip (s : String) : String :=
  String.mk (stripChars s.data)

/-- The last `n` elements of a list (a `collections.deque(maxlen=n)` keeps
exactly these after an `extend`; a numpy slice `[-n:]` also takes these). -/
def takeLast (n : Nat) (l : List α) : List α :=
  (l.reverse.take n).reverse

/-- Configuration constants of the streaming service, from
`src/services/asr_streaming/app.py` lines 96-101 and 425-427. -/
def SAMPLE_RATE : Nat := 16000

/-- `CHUNK_SIZE = int(SAMPLE_RATE * CHUNK_DURATION)` with `CHUNK_DURATION = 1.0`. -/
def CHUNK_SIZE : Nat := 16000

/-- `VAD_THRESHOLD = 0.3`. -/
def VAD_THRESHOLD : ℚ := 0.3

/-- `SILENCE_DURATION = 1.2` seconds of silence to finalize a segment. -/
def SILENCE_DURATION : ℚ := 1.2

/-- `MAX_SEGMENT_DURATION = 10.0` seconds before forced finalization. -/
def MAX_SEGMENT_DURATION : ℚ := 10

/-- `min_transcribe_interval = 2.0` (local of `process_streaming`). -/
def MIN_TRANSCRIBE_INTERVAL : ℚ := 2

/-- `min_audio_length = SAMPLE_RATE * 3` (local of `process_streaming`). -/
def MIN_AUDIO_LENGTH : Nat := 48000

/-- Capacity of the rolling audio buffer:
`deque(maxlen=int(SAMPLE_RATE * 30))`, a 30 second window. -/
def BUFFER_CAP : Nat := 480000

/-- Hallucination phrase denylist from `process_streaming`
(`app.py` line 498). -/
def HALLUCINATION_PHRASES : List String := ["thank you", "thanks for watching", "subscribe"]

/-- Python's `needle in haystack` on character lists, structurally. -/
def containsSub (needle : List Char) : List Char → Bool
  | [] => needle.isEmpty
  | c :: rest => needle.isPrefixOf (c :: rest) || containsSub needle rest

/-- Python's `phrase in text.lower()` for a `String` phrase. -/
def phraseInLower (text : String) (phrase : String) : Bool :=
  containsSub phrase.data (text.data.map Char.toLower)

/-- The hallucination filter of `process_streaming` (`app.py` lines 490-500):
a non-empty text is a hallucination when the set of its non-space characters
has at most 3 elements, or when its lowercase form contains one of the
denylisted phrases.  Empty text is not flagged (`if text:`). -/
def is_hallucination (text : String) : Bool :=
  if text = "" then false
  else if (text.data.filter (fun c => c ≠ ' ')).eraseDups.length ≤ 3 then true
  else HALLUCINATION_PHRASES.any (phraseInLower text)

/-- Session state of one `StreamingTranscriber` (`app.py` lines 381-394) plus
the `last_transcribe_time` local of its `process_streaming` loop.
`lastAttemptTime` is instrumentation only: it records the time of the most
recent invocation of the external transcription primitive (the most recent
transcription attempt), which the source itself does not store; no other
definition reads it.  It lets us state the specification's phrase
"time since last transcription attempt" exactly. -/
structure StreamState where
  audioBuffer : List ℚ
  segmentBuffer : List ℚ
  lastSpeechTime : ℚ
  segmentStartTime : ℚ
  currentText : String
  finalizedSegments : List String
  lastTranscribeTime : ℚ
  lastAttemptTime : ℚ

/-- `StreamingTranscriber.add_audio` (`app.py` lines 391-394): extend the
bounded rolling buffer (a `deque` with `maxlen`, evicting oldest samples)
and the unbounded segment buffer. -/
def add_audio (s : StreamState) (chunk : List ℚ) : StreamState :=
  { s with
    audioBuffer := takeLast BUFFER_CAP (s.audioBuffer ++ chunk)
    segmentBuffer := s.segmentBuffer ++ chunk }

/-- Result of one 100 ms evaluation tick of `process_streaming`:
the updated session state, the partial and final events sent over the
websocket (at most one each per tick), and the audio the external
transcription primitive was invoked on (`none` when it was not invoked). -/
structure TickResult where
  state : StreamState
  interimEvent : Option String
  finalEvent : Option String
  transcribedAudio : Option (List ℚ)

/-- The speech branch of a tick (`app.py` lines 454-523), entered when the
VAD probability exceeds the threshold: refresh `last_speech_time`; when
enough time has passed since the last (successful) transcription and the
segment buffer holds enough audio, invoke the transcription oracle on the
entire segment buffer; keep its stripped text as the current partial and
send a partial event unless it is empty or flagged as hallucination
(only then is `last_transcribe_time` advanced). -/
def speech_step (transcribe : List ℚ → String) (now : ℚ) (s : StreamState) :
    StreamState × Option String × Option (List ℚ) :=
  let s0 := { s with lastSpeechTime := now }
  if now - s0.lastTranscribeTime ≥ MIN_TRANSCRIBE_INTERVAL ∧
      MIN_AUDIO_LENGTH ≤ s0.segmentBuffer.length then
    let audio := s0.segmentBuffer
    let text := pyStrip (transcribe audio)
    let s1 := { s0 with lastAttemptTime := now }
    if text ≠ "" ∧ is_hallucination text = false then
      ({ s1 with currentText := text, lastTranscribeTime := now }, some text, some audio)
    else
      (s1, none, some audio)
  else
    (s0, none, none)

/-- The finalization check at the end of a tick (`app.py` lines 525-547):
if silence has lasted long enough, or the segment has grown too old, and a
non-empty partial text exists, emit a final event with the partial text,
append it to the finalized segments, clear the segment buffer and the
partial text, and restart the segment timer. -/
def finalize_step (now : ℚ) (s : StreamState) : StreamState × Option String :=
  let silenceDur := now - s.lastSpeechTime
  let segmentDur := now - s.segmentStartTime
  if (silenceDur ≥ SILENCE_DURATION ∧ s.currentText ≠ "") ∨
      (segmentDur ≥ MAX_SEGMENT_DURATION ∧ s.currentText ≠ "") then
    ({ s with
        finalizedSegments := s.finalizedSegments ++ [s.currentText]
        currentText := ""
        segmentBuffer := []
        segmentStartTime := now },
     some s.currentText)
  else
    (s, none)

/-- One evaluation tick of `process_streaming` (`app.py` lines 431-547):
skip while the segment buffer is shorter than one chunk; otherwise score the
trailing chunk with the VAD oracle, run the speech branch when speech is
detected, then run the finalization check.  `vad` abstracts
`check_vad` together with its RMS fallback (lines 443-452); `transcribe`
abstracts the Whisper call (its raised exceptions, which leave the state
unchanged for the rest of the speech branch, are not modelled). -/
def process_tick (vad : List ℚ → ℚ) (transcribe : List ℚ → String) (now : ℚ)
    (s : StreamState) : TickResult :=
  if s.segmentBuffer.length < CHUNK_SIZE then
    ⟨s, none, none, none⟩
  else
    let chunk := takeLast CHUNK_SIZE s.segmentBuffer
    let speechProb := vad chunk
    let step :=
      if speechProb > VAD_THRESHOLD then speech_step transcribe now s
      else (s, none, none)
    let fin := finalize_step now step.1
    ⟨fin.1, step.2.1, fin.2, step.2.2⟩

/-- The state after the speech-handling part of a tick, before the
finalization check (the value `process_tick` feeds into `finalize_step`). -/
def tick_mid_state (vad : List ℚ → ℚ) (transcribe : List ℚ → String) (now : ℚ)
    (s : StreamState) : StreamState :=
  if s.segmentBuffer.length < CHUNK_SIZE then s
  else if vad (takeLast CHUNK_SIZE s.segmentBuffer) > VAD_THRESHOLD then
    (speech_step transcribe now s).1
  else s

/-! ### Basic lemmas about `takeLast` and the tick decomposition -/

theorem takeLast_length_le (n : Nat) (l : List α) : (takeLast n l).length ≤ n := by
  unfold takeLast
  simp only [List.length_reverse, List.length_take]
  exact min_le_left _ _

theorem takeLast_of_length_le (n : Nat) (l : List α) (h : l.length ≤ n) :
    takeLast n l = l := by
  unfold takeLast
  rw [List.take_of_length_le (by simpa using h), List.reverse_reverse]

theorem takeLast_append_takeLast (n : Nat) (a b : List α) :
    takeLast n (takeLast n a ++ b) = takeLast n (a ++ b) := by
  unfold takeLast
  rw [List.reverse_append, List.reverse_reverse, List.reverse_append]
  congr 1
  rw [List.take_append_eq_append_take, List.take_append_eq_append_take, List.take_take,
    min_eq_left (Nat.sub_le n _)]

theorem add_audio_foldl (init : StreamState) (chunks : List (List ℚ))
    (hcap : init.audioBuffer.length ≤ BUFFER_CAP) :
    (List.foldl add_audio init chunks).audioBuffer
        = takeLast BUFFER_CAP (init.audioBuffer ++ chunks.flatten) ∧
    (List.foldl add_audio init chunks).segmentBuffer
        = init.segmentBuffer ++ chunks.flatten := by
  induction chunks generalizing init with
  | nil =>
    refine ⟨?_, by simp⟩
    simp [takeLast_of_length_le _ _ hcap]
  | cons c cs ih =>
    simp only [List.foldl_cons, List.flatten_cons]
    obtain ⟨h1, h2⟩ := ih (add_audio init c) (takeLast_length_le _ _)
    refine ⟨?_, ?_⟩
    · rw [h1]
      show takeLast BUFFER_CAP (takeLast BUFFER_CAP (init.audioBuffer ++ c) ++ cs.flatten) = _
      rw [takeLast_append_takeLast, List.append_assoc]
    · rw [h2]
      show init.segmentBuffer ++ c ++ cs.flatten = _
      rw [List.append_assoc]

theorem speech_step_preserves (transcribe : List ℚ → String) (now : ℚ) (s : StreamState) :
    ((speech_step transcribe now s).1).finalizedSegments = s.finalizedSegments ∧
    ((speech_step transcribe now s).1).segmentBuffer = s.segmentBuffer ∧
    ((speech_step transcribe now s).1).segmentStartTime = s.segmentStartTime ∧
    ((speech_step transcribe now s).1).lastSpeechTime = now := by
  unfold speech_step
  dsimp only
  by_cases h1 : now - s.lastTranscribeTime ≥ MIN_TRANSCRIBE_INTERVAL ∧
      MIN_AUDIO_LENGTH ≤ s.segmentBuffer.length
  · rw [if_pos h1]
    by_cases h2 : pyStrip (transcribe s.segmentBuffer) ≠ "" ∧
        is_hallucination (pyStrip (transcribe s.segmentBuffer)) = false
    · rw [if_pos h2]
      exact ⟨rfl, rfl, rfl, rfl⟩
    · rw [if_neg h2]
      exact ⟨rfl, rfl, rfl, rfl⟩
  · rw [if_neg h1]
    exact ⟨rfl, rfl, rfl, rfl⟩

theorem tick_mid_preserves (vad : List ℚ → ℚ) (transcribe : List ℚ → String)
    (now : ℚ) (s : StreamState) :
    (tick_mid_state vad transcribe now s).finalizedSegments = s.finalizedSegments ∧
    (tick_mid_state vad transcribe now s).segmentBuffer = s.segmentBuffer := by
  unfold tick_mid_state
  split
  · exact ⟨rfl, rfl⟩
  · split
    · exact ⟨(speech_step_preserves transcribe now s).1,
        (speech_step_preserves transcribe now s).2.1⟩
    · exact ⟨rfl, rfl⟩

theorem process_tick_decomp (vad : List ℚ → ℚ) (transcribe : List ℚ → String)
    (now : ℚ) (s : StreamState) (hb : ¬ s.segmentBuffer.length < CHUNK_SIZE) :
    (process_tick vad transcribe now s).finalEvent
        = (finalize_step now (tick_mid_state vad transcribe now s)).2 ∧
    (process_tick vad transcribe now s).state
        = (finalize_step now (tick_mid_state vad transcribe now s)).1 ∧
    (process_tick vad transcribe now s).transcribedAudio
        = (if vad (takeLast CHUNK_SIZE s.segmentBuffer) > VAD_THRESHOLD
            then speech_step transcribe now s else (s, none, none)).2.2 := by
  simp only [process_tick, tick_mid_state, if_neg hb]
  by_cases hv : vad (takeLast CHUNK_SIZE s.segmentBuffer) > VAD_THRESHOLD
  · simp only [if_pos hv]
    refine ⟨?_, ?_, ?_⟩ <;> trivial
  · simp only [if_neg hv]
    refine ⟨?_, ?_, ?_⟩ <;> trivial

theorem finalize_step_pos (now : ℚ) (s : StreamState)
    (h : (now - s.lastSpeechTime ≥ SILENCE_DURATION ∨
          now - s.segmentStartTime ≥ MAX_SEGMENT_DURATION) ∧ s.currentText ≠ "") :
    finalize_step now s =
      ({ s with
          finalizedSegments := s.finalizedSegments ++ [s.currentText]
          currentText := ""
          segmentBuffer := []
          segmentStartTime := now },
       some s.currentText) := by
  have h2 : (now - s.lastSpeechTime ≥ SILENCE_DURATION ∧ s.currentText ≠ "") ∨
      (now - s.segmentStartTime ≥ MAX_SEGMENT_DURATION ∧ s.currentText ≠ "") := by tauto
  simp only [finalize_step, if_pos h2]

theorem finalize_step_neg (now : ℚ) (s : StreamState)
    (h : ¬ ((now - s.lastSpeechTime ≥ SILENCE_DURATION ∨
          now - s.segmentStartTime ≥ MAX_SEGMENT_DURATION) ∧ s.currentText ≠ "")) :
    finalize_step now s = (s, none) := by
  have h2 : ¬ ((now - s.lastSpeechTime ≥ SILENCE_DURATION ∧ s.currentText ≠ "") ∨
      (now - s.segmentStartTime ≥ MAX_SEGMENT_DURATION ∧ s.currentText ≠ "")) := by tauto
  simp only [finalize_step, if_neg h2]

/-- CLAIM C1.  On each evaluation tick of the streaming loop a final segment
event is emitted exactly when (silence has reached `SILENCE_DURATION` or the
segment has reached `MAX_SEGMENT_DURATION`) and the current partial text is
non-empty; immediately after finalization the partial text has been appended
to the finalized segments, the segment buffer is empty, the partial text is
cleared, and the segment start timestamp equals the tick's current time.
The timers and partial text are those the tick's finalization check reads,
i.e. of `tick_mid_state` (the state after the speech branch of the same
tick).  The hypothesis is the reachability invariant of the loop: a
non-empty partial text implies the segment buffer holds at least one chunk
(transcription requires `MIN_AUDIO_LENGTH ≥ CHUNK_SIZE` samples and the
buffer only grows until finalization clears both). -/
theorem segment_finalization (vad : List ℚ → ℚ) (transcribe : List ℚ → String)
    (now : ℚ) (s : StreamState)
    (hreach : CHUNK_SIZE ≤ s.segmentBuffer.length ∨ s.currentText = "") :
    ((process_tick vad transcribe now s).finalEvent.isSome ↔
      ((now - (tick_mid_state vad transcribe now s).lastSpeechTime ≥ SILENCE_DURATION ∨
        now - (tick_mid_state vad transcribe now s).segmentStartTime ≥ MAX_SEGMENT_DURATION) ∧
       (tick_mid_state vad transcribe now s).currentText ≠ "")) ∧
    (((now - (tick_mid_state vad transcribe now s).lastSpeechTime ≥ SILENCE_DURATION ∨
        now - (tick_mid_state vad transcribe now s).segmentStartTime ≥ MAX_SEGMENT_DURATION) ∧
       (tick_mid_state vad transcribe now s).currentText ≠ "") →
      (process_tick vad transcribe now s).finalEvent
          = some (tick_mid_state vad transcribe now s).currentText ∧
      (process_tick vad transcribe now s).state.finalizedSegments
          = s.finalizedSegments ++ [(tick_mid_state vad transcribe now s).currentText] ∧
      (process_tick vad transcribe now s).state.segmentBuffer = [] ∧
      (process_tick vad transcribe now s).state.currentText = "" ∧
      (process_tick vad transcribe now s).state.segmentStartTime = now) := by
  by_cases hb : s.segmentBuffer.length < CHUNK_SIZE
  · have htext : s.currentText = "" := by
      rcases hreach with h | h
      · omega
      · exact h
    have hm : tick_mid_state vad transcribe now s = s := by
      unfold tick_mid_state
      rw [if_pos hb]
    have hr : process_tick vad transcribe now s = ⟨s, none, none, none⟩ := by
      unfold process_tick
      rw [if_pos hb]
    rw [hm, hr]
    simp [htext]
  · obtain ⟨he, hs, _⟩ := process_tick_decomp vad transcribe now s hb
    by_cases hc : (now - (tick_mid_state vad transcribe now s).lastSpeechTime ≥ SILENCE_DURATION ∨
        now - (tick_mid_state vad transcribe now s).segmentStartTime ≥ MAX_SEGMENT_DURATION) ∧
        (tick_mid_state vad transcribe now s).currentText ≠ ""
    · have hfin := finalize_step_pos now (tick_mid_state vad transcribe now s) hc
      rw [he, hs, hfin]
      refine ⟨by simpa using hc, fun _ => ⟨rfl, ?_, rfl, rfl, rfl⟩⟩
      simp only []
      rw [(tick_mid_preserves vad transcribe now s).1]
    · have hfin := finalize_step_neg now (tick_mid_state vad transcribe now s) hc
      rw [he, hs, hfin]
      exact ⟨by simpa using hc, fun h => absurd h hc⟩

theorem finalize_step_preserves_times (now : ℚ) (s : StreamState) :
    ((finalize_step now s).1).lastAttemptTime = s.lastAttemptTime ∧
    ((finalize_step now s).1).lastTranscribeTime = s.lastTranscribeTime := by
  unfold finalize_step
  dsimp only
  split
  · exact ⟨rfl, rfl⟩
  · exact ⟨rfl, rfl⟩

theorem tick_mid_of_speech (vad : List ℚ → ℚ) (transcribe : List ℚ → String)
    (now : ℚ) (s : StreamState) (hb : ¬ s.segmentBuffer.length < CHUNK_SIZE)
    (hv : vad (takeLast CHUNK_SIZE s.segmentBuffer) > VAD_THRESHOLD) :
    tick_mid_state vad transcribe now s = (speech_step transcribe now s).1 := by
  unfold tick_mid_state
  rw [if_neg hb, if_pos hv]

/-- CLAIM C2 (amended).  During a tick in which speech is detected, the
external transcription primitive is invoked if and only if the elapsed time
since the last *successful* transcription (`lastTranscribeTime`, advanced
only when a transcription produced non-empty, non-hallucinated text) is at
least `MIN_TRANSCRIBE_INTERVAL` and the segment buffer holds at least
`MIN_AUDIO_LENGTH` samples; when invoked, it is invoked on the entire
current segment buffer.  The last two conjuncts record the update
discipline of the two timestamps: the attempt time advances on every
invocation, the transcribe time only on success. -/
theorem transcription_gating (vad : List ℚ → ℚ) (transcribe : List ℚ → String)
    (now : ℚ) (s : StreamState)
    (hb : ¬ s.segmentBuffer.length < CHUNK_SIZE)
    (hv : vad (takeLast CHUNK_SIZE s.segmentBuffer) > VAD_THRESHOLD) :
    ((process_tick vad transcribe now s).transcribedAudio.isSome ↔
      (now - s.lastTranscribeTime ≥ MIN_TRANSCRIBE_INTERVAL ∧
       MIN_AUDIO_LENGTH ≤ s.segmentBuffer.length)) ∧
    ((process_tick vad transcribe now s).transcribedAudio = none ∨
      (process_tick vad transcribe now s).transcribedAudio = some s.segmentBuffer) ∧
    ((process_tick vad transcribe now s).state.lastAttemptTime =
      if now - s.lastTranscribeTime ≥ MIN_TRANSCRIBE_INTERVAL ∧
          MIN_AUDIO_LENGTH ≤ s.segmentBuffer.length then now else s.lastAttemptTime) ∧
    ((process_tick vad transcribe now s).state.lastTranscribeTime =
      if (now - s.lastTranscribeTime ≥ MIN_TRANSCRIBE_INTERVAL ∧
            MIN_AUDIO_LENGTH ≤ s.segmentBuffer.length) ∧
          (pyStrip (transcribe s.segmentBuffer) ≠ "" ∧
            is_hallucination (pyStrip (transcribe s.segmentBuffer)) = false)
        then now else s.lastTranscribeTime) := by
  obtain ⟨-, hst, hau⟩ := process_tick_decomp vad transcribe now s hb
  rw [hau, hst, if_pos hv, tick_mid_of_speech vad transcribe now s hb hv]
  rw [(finalize_step_preserves_times now _).1, (finalize_step_preserves_times now _).2]
  unfold speech_step
  dsimp only
  by_cases h1 : now - s.lastTranscribeTime ≥ MIN_TRANSCRIBE_INTERVAL ∧
      MIN_AUDIO_LENGTH ≤ s.segmentBuffer.length
  · rw [if_pos h1]
    by_cases h2 : pyStrip (transcribe s.segmentBuffer) ≠ "" ∧
        is_hallucination (pyStrip (transcribe s.segmentBuffer)) = false
    · rw [if_pos h2]
      refine ⟨by simpa using h1, Or.inr rfl, by rw [if_pos h1], by rw [if_pos ⟨h1, h2⟩]⟩
    · rw [if_neg h2]
      refine ⟨by simpa using h1, Or.inr rfl, by rw [if_pos h1], ?_⟩
      rw [if_neg (by tauto)]
  · rw [if_neg h1]
    refine ⟨by simpa using h1, Or.inl rfl, by rw [if_neg h1], ?_⟩
    rw [if_neg (by tauto)]

/-- Helper for concrete runs: a tick with speech detected, the gate open,
an empty transcription result and an empty current partial leaves the state
with both `lastSpeechTime` and `lastAttemptTime` set to `now` and nothing
else changed, while the transcription primitive was invoked on the whole
segment buffer. -/
theorem process_tick_failed_attempt (vad : List ℚ → ℚ) (transcribe : List ℚ → String)
    (now : ℚ) (s : StreamState)
    (hb : ¬ s.segmentBuffer.length < CHUNK_SIZE)
    (hv : vad (takeLast CHUNK_SIZE s.segmentBuffer) > VAD_THRESHOLD)
    (hgate : now - s.lastTranscribeTime ≥ MIN_TRANSCRIBE_INTERVAL ∧
      MIN_AUDIO_LENGTH ≤ s.segmentBuffer.length)
    (hfail : pyStrip (transcribe s.segmentBuffer) = "")
    (htext : s.currentText = "") :
    (process_tick vad transcribe now s).state =
      { s with lastSpeechTime := now, lastAttemptTime := now } ∧
    (process_tick vad transcribe now s).transcribedAudio = some s.segmentBuffer := by
  obtain ⟨-, hst, hau⟩ := process_tick_decomp vad transcribe now s hb
  have hmid : tick_mid_state vad transcribe now s =
      { s with lastSpeechTime := now, lastAttemptTime := now } := by
    rw [tick_mid_of_speech vad transcribe now s hb hv]
    unfold speech_step
    dsimp only
    rw [if_pos hgate, if_neg (by simp [hfail])]
  constructor
  · rw [hst, hmid, finalize_step_neg]
    simp [htext]
  · rw [hau, if_pos hv]
    unfold speech_step
    dsimp only
    rw [if_pos hgate, if_neg (by simp [hfail])]

/-- A VAD oracle that always reports certain speech. -/
def speech_vad : List ℚ → ℚ := fun _ => 1

/-- A VAD oracle that always reports silence. -/
def silence_vad : List ℚ → ℚ := fun _ => 0

/-- A transcription oracle that always returns empty text. -/
def empty_transcribe : List ℚ → String := fun _ => ""

/-- A session state holding 3 s of silence samples, no partial text, and a
last successful transcription far in the past. -/
def cex_state0 : StreamState :=
  ⟨[], List.replicate 48000 0, 0, 0, "", [], -100, -100⟩

/-- The state `cex_state0` after a tick at time 0 whose transcription
attempt returned empty text. -/
def cex_state1 : StreamState :=
  { cex_state0 with lastSpeechTime := 0, lastAttemptTime := 0 }

/-- CLAIM C2 counterexample.  The claim as stated gates transcription on the
time since the last transcription *attempt*.  The code gates on
`last_transcribe_time`, which advances only when a transcription succeeds
(non-empty, non-hallucinated text).  Concretely: at time 0 a tick invokes
the primitive (which returns empty text); at time 0.1 — only 0.1 s after
that attempt, far below the 2 s minimum interval — the primitive is
invoked again. -/
theorem transcription_gating_cex :
    (process_tick speech_vad empty_transcribe 0 cex_state0).transcribedAudio
        = some (List.replicate 48000 0) ∧
    (process_tick speech_vad empty_transcribe 0 cex_state0).state = cex_state1 ∧
    cex_state1.lastAttemptTime = 0 ∧
    (process_tick speech_vad empty_transcribe ((1:ℚ)/10) cex_state1).transcribedAudio
        = some (List.replicate 48000 0) ∧
    (1:ℚ)/10 - cex_state1.lastAttemptTime < MIN_TRANSCRIBE_INTERVAL := by
  have hb : ¬ cex_state0.segmentBuffer.length < CHUNK_SIZE := by
    simp only [cex_state0, CHUNK_SIZE, List.length_replicate]
    omega
  have hv : speech_vad (takeLast CHUNK_SIZE cex_state0.segmentBuffer) > VAD_THRESHOLD := by
    unfold speech_vad VAD_THRESHOLD
    norm_num
  have hgate : (0:ℚ) - cex_state0.lastTranscribeTime ≥ MIN_TRANSCRIBE_INTERVAL ∧
      MIN_AUDIO_LENGTH ≤ cex_state0.segmentBuffer.length := by
    constructor
    · unfold cex_state0 MIN_TRANSCRIBE_INTERVAL
      norm_num
    · simp only [cex_state0, MIN_AUDIO_LENGTH, List.length_replicate]
      omega
  obtain ⟨hs1, ha1⟩ := process_tick_failed_attempt speech_vad empty_transcribe 0 cex_state0
    hb hv hgate rfl rfl
  have hb2 : ¬ cex_state1.segmentBuffer.length < CHUNK_SIZE := hb
  have hv2 : speech_vad (takeLast CHUNK_SIZE cex_state1.segmentBuffer) > VAD_THRESHOLD := by
    unfold speech_vad VAD_THRESHOLD
    norm_num
  have hgate2 : (1:ℚ)/10 - cex_state1.lastTranscribeTime ≥ MIN_TRANSCRIBE_INTERVAL ∧
      MIN_AUDIO_LENGTH ≤ cex_state1.segmentBuffer.length := by
    constructor
    · show (1:ℚ)/10 - cex_state0.lastTranscribeTime ≥ MIN_TRANSCRIBE_INTERVAL
      unfold cex_state0 MIN_TRANSCRIBE_INTERVAL
      norm_num
    · exact hgate.2
  obtain ⟨-, ha2⟩ := process_tick_failed_attempt speech_vad empty_transcribe ((1:ℚ)/10)
    cex_state1 hb2 hv2 hgate2 rfl rfl
  refine ⟨by rw [ha1]; rfl, by rw [hs1]; rfl, rfl, by rw [ha2]; rfl, ?_⟩
  show (1:ℚ)/10 - 0 < MIN_TRANSCRIBE_INTERVAL
  unfold MIN_TRANSCRIBE_INTERVAL
  norm_num

/-- CLAIM C2 witness: the amended gating theorem applied at a concrete
speech tick. -/
theorem transcription_gating_witness :
    (process_tick speech_vad empty_transcribe 0 cex_state0).transcribedAudio = none ∨
    (process_tick speech_vad empty_transcribe 0 cex_state0).transcribedAudio
      = some cex_state0.segmentBuffer :=
  (transcription_gating speech_vad empty_transcribe 0 cex_state0
    (by simp only [cex_state0, CHUNK_SIZE, List.length_replicate]; omega)
    (by unfold speech_vad VAD_THRESHOLD; norm_num)).2.1

/-- A session state holding 1 s of samples and a pending partial text, with
last speech 2 s in the past. -/
def wit_fin_state : StreamState :=
  ⟨[], List.replicate 16000 0, 0, 0, "hello", [], 0, 0⟩

/-- CLAIM C1 witness: a tick at time 2 with silence since time 0 and partial
text `"hello"` emits a final event. -/
theorem segment_finalization_witness :
    (process_tick silence_vad empty_transcribe 2 wit_fin_state).finalEvent.isSome := by
  have h := segment_finalization silence_vad empty_transcribe 2 wit_fin_state
    (Or.inl (by simp only [wit_fin_state, CHUNK_SIZE, List.length_replicate]; omega))
  apply h.1.mpr
  have hmid : tick_mid_state silence_vad empty_transcribe 2 wit_fin_state = wit_fin_state := by
    unfold tick_mid_state
    rw [if_neg (by simp only [wit_fin_state, CHUNK_SIZE, List.length_replicate]; omega),
      if_neg (by unfold silence_vad VAD_THRESHOLD; norm_num)]
  rw [hmid]
  refine ⟨Or.inl ?_, by simp only [wit_fin_state]; decide⟩
  show (2:ℚ) - wit_fin_state.lastSpeechTime ≥ SILENCE_DURATION
  unfold wit_fin_state SILENCE_DURATION
  norm_num

/-- CLAIM C8.  For any sequence of appended audio chunks, the rolling buffer
length never exceeds its fixed `BUFFER_CAP` capacity (30 s of samples at
16 kHz) after every append — the quantification over `chunks` covers every
prefix of any append sequence — with the oldest samples evicted first (the
buffer is exactly the trailing `BUFFER_CAP` samples of everything ever
appended), while the segment buffer accumulates every appended sample
without bound (it is cleared only by segment finalization,
cf. `segment_finalization`). -/
theorem rolling_buffer_invariant (init : StreamState) (chunks : List (List ℚ))
    (hcap : init.audioBuffer.length ≤ BUFFER_CAP) :
    ((List.foldl add_audio init chunks).audioBuffer.length ≤ BUFFER_CAP) ∧
    (List.foldl add_audio init chunks).audioBuffer
        = takeLast BUFFER_CAP (init.audioBuffer ++ chunks.flatten) ∧
    (List.foldl add_audio init chunks).segmentBuffer
        = init.segmentBuffer ++ chunks.flatten := by
  obtain ⟨h1, h2⟩ := add_audio_foldl init chunks hcap
  exact ⟨h1 ▸ takeLast_length_le _ _, h1, h2⟩

/-- CLAIM C8 witness: the invariant applied to a concrete append sequence. -/
theorem rolling_buffer_invariant_witness :
    ((List.foldl add_audio cex_state0 [[1, 2], [3]]).audioBuffer.length ≤ BUFFER_CAP) ∧
    (List.foldl add_audio cex_state0 [[1, 2], [3]]).audioBuffer
        = takeLast BUFFER_CAP (cex_state0.audioBuffer ++ ([[1, 2], [3]] : List (List ℚ)).flatten) ∧
    (List.foldl add_audio cex_state0 [[1, 2], [3]]).segmentBuffer
        = cex_state0.segmentBuffer ++ ([[1, 2], [3]] : List (List ℚ)).flatten :=
  rolling_buffer_invariant cex_state0 [[1, 2], [3]]
    (by simp only [cex_state0, List.length_nil, BUFFER_CAP]; omega)

/-! ### Speaker diarization: turns, filtering, smoothing, alignment -/

/-- A diarization speaker turn: the Python dict
`{"start": .., "end": .., "speaker": ..}`.  The field `stop` models the
dict key `"end"` (a reserved word in Lean). -/
structure Turn where
  start : ℚ
  stop : ℚ
  speaker : String

/-- `MIN_SEGMENT_DURATION = 0.4` (`app.py` line 227, inside the unreachable
diarization block). -/
def MIN_SEGMENT_DURATION : ℚ := 0.4

/-- The raw-turn filter of the (unreachable) diarization body
(`app.py` lines 227-238): keep only turns of duration at least
`MIN_SEGMENT_DURATION`. -/
def filter_short_turns (turns : List Turn) : List Turn :=
  turns.filter (fun t => decide (t.stop - t.start ≥ MIN_SEGMENT_DURATION))

theorem filter_short_turns_sound (turns : List Turn) :
    ∀ t ∈ filter_short_turns turns, t.stop - t.start ≥ MIN_SEGMENT_DURATION := by
  intro t ht
  have := List.of_mem_filter ht
  simpa using this

/-- `perform_speaker_diarization` (`app.py` lines 127-133).  When diarization
is disabled the function returns `[]` (modelled `some []`).  When it is
enabled, control falls off the end of the function — its intended body
(lines 211-251, including the short-turn filter and the smoothing call) sits
unreachable inside `assign_persistent_speakers` after that function's
`return` — so Python returns `None`, modelled `none`.  The `audio` argument
is unused for the same reason. -/
def perform_speaker_diarization (diarizationEnabled : Bool) (_audio : List ℚ) :
    Option (List Turn) :=
  if diarizationEnabled = false then some []
  else none

/-- CLAIM C7 (code bug).  The specification says raw diarization turns
shorter than 0.4 s are dropped before smoothing.  In the code, when
diarization is enabled `perform_speaker_diarization` returns Python `None`:
the filtering body is unreachable dead code (it sits after the `return` of
`assign_persistent_speakers`), so no turn list — filtered or not — is ever
produced.  When diarization is disabled the function returns the empty
list, as a sanity contrast. -/
theorem perform_speaker_diarization_returns_none :
    perform_speaker_diarization true [] = none ∧
    perform_speaker_diarization false [] = some [] :=
  ⟨rfl, rfl⟩

/-- The body of the smoothing loop of `smooth_speaker_changes`
(`app.py` lines 264-283): `front ++ [prev]` is the `smoothed` list with
`prev = smoothed[-1]` kept apart so the merge branch can extend its end;
the final singleton is `speaker_segments[-1]`, appended after the loop. -/
def smooth_go (minSwitch : ℚ) (front : List Turn) (prev : Turn) : List Turn → List Turn
  | [] => front ++ [prev]
  | [lastSeg] => front ++ [prev, lastSeg]
  | cur :: nxt :: rest =>
    if cur.stop - cur.start < minSwitch ∧ prev.speaker = nxt.speaker ∧
        cur.speaker ≠ prev.speaker then
      smooth_go minSwitch front { prev with stop := cur.stop } (nxt :: rest)
    else
      smooth_go minSwitch (front ++ [prev]) cur (nxt :: rest)

/-- `smooth_speaker_changes` (`app.py` lines 253-284) with its default
`min_switch_duration = 0.5` passed explicitly: lists shorter than 3 are
returned unchanged; otherwise a short turn bounded on both sides by the
same other speaker is absorbed by extending the preceding turn's end. -/
def smooth_speaker_changes (speaker_segments : List Turn)
    (min_switch_duration : ℚ) : List Turn :=
  if speaker_segments.length < 3 then speaker_segments
  else
    match speaker_segments with
    | [] => speaker_segments
    | s0 :: rest => smooth_go min_switch_duration [] s0 rest

/-- CLAIM C4 counterexample.  On the specification's own example
`[(0,0.3,A),(0.3,0.5,B),(0.5,2.0,A)]` with minimum switch duration 0.5,
smoothing does NOT yield the single turn `(0,2.0,A)`: the code only extends
the preceding `A` turn's end over the short `B` turn (to 0.5) and keeps the
following `A` turn as a separate element. -/
theorem smooth_example_not_single_turn :
    smooth_speaker_changes [⟨0, 0.3, "A"⟩, ⟨0.3, 0.5, "B"⟩, ⟨0.5, 2, "A"⟩] 0.5
      ≠ [⟨0, 2, "A"⟩] := by
  have h : smooth_speaker_changes [⟨0, 0.3, "A"⟩, ⟨0.3, 0.5, "B"⟩, ⟨0.5, 2, "A"⟩] 0.5
      = [⟨0, 0.5, "A"⟩, ⟨0.5, 2, "A"⟩] := by
    unfold smooth_speaker_changes
    rw [if_neg (by simp)]
    show smooth_go 0.5 [] ⟨0, 0.3, "A"⟩ [⟨0.3, 0.5, "B"⟩, ⟨0.5, 2, "A"⟩] = _
    unfold smooth_go
    rw [if_pos ⟨by norm_num, rfl, by simp⟩]
    rfl
  rw [h]
  intro hcontra
  exact absurd (congrArg List.length hcontra) (by simp)

/-- CLAIM C4 (amended).  Pre-merge smoothing absorbs a diarization turn
shorter than the minimum switch duration that is bounded on both sides by
the same other speaker, by extending the preceding turn's end over it; the
following same-speaker turn is kept as a separate turn (the code never
merges it into the extended one).  In particular the specification's
example yields `[(0,0.5,A),(0.5,2.0,A)]`, two turns, not one. -/
theorem smooth_short_turn_absorbed (a b c : Turn) (m : ℚ)
    (hshort : b.stop - b.start < m)
    (hsame : a.speaker = c.speaker)
    (hdiff : b.speaker ≠ a.speaker) :
    smooth_speaker_changes [a, b, c] m = [{ a with stop := b.stop }, c] := by
  unfold smooth_speaker_changes
  rw [if_neg (by simp)]
  show smooth_go m [] a [b, c] = _
  unfold smooth_go
  rw [if_pos ⟨hshort, hsame, hdiff⟩]
  rfl

/-- CLAIM C4 witness: the amended statement applied to the specification's
concrete example. -/
theorem smooth_short_turn_absorbed_witness :
    smooth_speaker_changes [⟨0, 0.3, "A"⟩, ⟨0.3, 0.5, "B"⟩, ⟨0.5, 2, "A"⟩] 0.5
      = [⟨0, 0.5, "A"⟩, ⟨0.5, 2, "A"⟩] :=
  smooth_short_turn_absorbed ⟨0, 0.3, "A"⟩ ⟨0.3, 0.5, "B"⟩ ⟨0.5, 2, "A"⟩ 0.5
    (by norm_num) rfl (by simp)

/-- A transcription segment as handed to `assign_speakers_to_segments`: the
dict `{"text": .., "start": .., "end": ..}` built at `app.py` lines 628-635
and 823-830, plus the optional `"speaker"` key the assignment adds (`none`
models an absent key). -/
structure TransSeg where
  start : ℚ
  stop : ℚ
  text : String
  speaker : Option String

/-- Temporal overlap of a transcription segment and a speaker turn
(`app.py` lines 305-308): `max(0, min(ends) - max(starts))`. -/
def overlap_with (seg : TransSeg) (spk : Turn) : ℚ :=
  max 0 (min seg.stop spk.stop - max seg.start spk.start)

/-- One iteration of the max-overlap loop (`app.py` lines 304-312): replace
the best candidate only on strictly greater overlap (first maximum wins). -/
def overlap_step (seg : TransSeg) (acc : Option String × ℚ) (spk : Turn) :
    Option String × ℚ :=
  let ov := overlap_with seg spk
  if ov > acc.2 then (some spk.speaker, ov) else acc

/-- The max-overlap loop, started from `best_speaker = None`,
`max_overlap = 0`. -/
def best_overlap_loop (seg : TransSeg) (turns : List Turn) : Option String × ℚ :=
  turns.foldl (overlap_step seg) (none, 0)

/-- The midpoint fallback (`app.py` lines 315-319): the first turn whose
interval contains the segment midpoint (the loop breaks on the first hit). -/
def midpoint_speaker (mid : ℚ) (turns : List Turn) : Option String :=
  (turns.find? (fun spk => decide (spk.start ≤ mid ∧ mid ≤ spk.stop))).map Turn.speaker

/-- The key of the closest-turn fallback (`app.py` line 324):
`min(|start - mid|, |end - mid|)`. -/
def closest_key (mid : ℚ) (spk : Turn) : ℚ :=
  min |spk.start - mid| |spk.stop - mid|

/-- Python's `min(..., key=...)` over a non-empty list: keeps the first
element attaining the minimum key (later elements replace only on strictly
smaller key). -/
def py_min_by (mid : ℚ) : Turn → List Turn → Turn
  | best, [] => best
  | best, t :: ts =>
    if closest_key mid t < closest_key mid best then py_min_by mid t ts
    else py_min_by mid best ts

/-- Python's `best_speaker or "SPEAKER_00"` (`app.py` line 329): `None` and
the empty string are both falsy and fall back to the default label. -/
def or_speaker_default : Option String → String
  | none => "SPEAKER_00"
  | some sp => if sp = "" then "SPEAKER_00" else sp

/-- Speaker assignment for one transcription segment (`app.py` lines
295-330): maximum temporal overlap, then midpoint containment, then
closest turn, then the falsy-default. -/
def assign_one (turns : List Turn) (seg : TransSeg) : TransSeg :=
  let mid := (seg.start + seg.stop) / 2
  let best1 := (best_overlap_loop seg turns).1
  let best2 :=
    match best1 with
    | some sp => some sp
    | none => midpoint_speaker mid turns
  let best3 :=
    match best2 with
    | some sp => some sp
    | none =>
      match turns with
      | [] => none
      | t :: ts => some (py_min_by mid t ts).speaker
  { seg with speaker := some (or_speaker_default best3) }

/-- `assign_speakers_to_segments` (`app.py` lines 286-332): with no
diarization turns the transcription segments are returned unchanged
(without any speaker key); otherwise every segment is assigned a
speaker. -/
def assign_speakers_to_segments (transcription_segments : List TransSeg)
    (speaker_segments : List Turn) : List TransSeg :=
  if speaker_segments.isEmpty then transcription_segments
  else transcription_segments.map (assign_one speaker_segments)

/-! Fold lemmas for the max-overlap loop. -/

theorem overlap_foldl_le (seg : TransSeg) (turns : List Turn) :
    ∀ acc : Option String × ℚ,
      acc.2 ≤ (turns.foldl (overlap_step seg) acc).2 ∧
      ∀ spk ∈ turns, overlap_with seg spk ≤ (turns.foldl (overlap_step seg) acc).2 := by
  induction turns with
  | nil => exact fun acc => ⟨le_refl _, by simp⟩
  | cons t ts ih =>
    intro acc
    simp only [List.foldl_cons]
    obtain ⟨h1, h2⟩ := ih (overlap_step seg acc t)
    have hstep : acc.2 ≤ (overlap_step seg acc t).2 ∧
        overlap_with seg t ≤ (overlap_step seg acc t).2 := by
      unfold overlap_step
      dsimp only
      split
      · next h => exact ⟨le_of_lt h, le_refl _⟩
      · next h => exact ⟨le_refl _, le_of_not_lt h⟩
    refine ⟨le_trans hstep.1 h1, ?_⟩
    intro spk hspk
    rcases List.mem_cons.mp hspk with h | h
    · subst h
      exact le_trans hstep.2 h1
    · exact h2 spk h

theorem overlap_foldl_cases (seg : TransSeg) (turns : List Turn) :
    ∀ acc : Option String × ℚ,
      turns.foldl (overlap_step seg) acc = acc ∨
      ∃ spk ∈ turns,
        turns.foldl (overlap_step seg) acc = (some spk.speaker, overlap_with seg spk) := by
  induction turns with
  | nil => exact fun acc => Or.inl rfl
  | cons t ts ih =>
    intro acc
    simp only [List.foldl_cons]
    unfold overlap_step
    dsimp only
    split
    · rcases ih (some t.speaker, overlap_with seg t) with h | ⟨spk, hspk, h⟩
      · exact Or.inr ⟨t, List.mem_cons_self t ts, h⟩
      · exact Or.inr ⟨spk, List.mem_cons_of_mem t hspk, h⟩
    · rcases ih acc with h | ⟨spk, hspk, h⟩
      · exact Or.inl h
      · exact Or.inr ⟨spk, List.mem_cons_of_mem t hspk, h⟩

theorem overlap_foldl_stay (seg : TransSeg) (turns : List Turn) :
    ∀ acc : Option String × ℚ, 0 ≤ acc.2 →
      (∀ spk ∈ turns, overlap_with seg spk ≤ 0) →
      turns.foldl (overlap_step seg) acc = acc := by
  induction turns with
  | nil => exact fun acc _ _ => rfl
  | cons t ts ih =>
    intro acc hacc hall
    simp only [List.foldl_cons]
    have hstep : overlap_step seg acc t = acc := by
      unfold overlap_step
      dsimp only
      rw [if_neg]
      intro hlt
      exact absurd (lt_of_le_of_lt hacc hlt)
        (not_lt.mpr (hall t (List.mem_cons_self t ts)))
    rw [hstep]
    exact ih acc hacc (fun spk hspk => hall spk (List.mem_cons_of_mem t hspk))

theorem py_min_by_spec (mid : ℚ) : ∀ (ts : List Turn) (best : Turn),
    (py_min_by mid best ts = best ∨ py_min_by mid best ts ∈ ts) ∧
    closest_key mid (py_min_by mid best ts) ≤ closest_key mid best ∧
    ∀ t ∈ ts, closest_key mid (py_min_by mid best ts) ≤ closest_key mid t := by
  intro ts
  induction ts with
  | nil => exact fun best => ⟨Or.inl rfl, le_refl _, by simp⟩
  | cons t ts ih =>
    intro best
    unfold py_min_by
    split
    · next hlt =>
      obtain ⟨hmem, hle, hall⟩ := ih t
      refine ⟨?_, le_trans hle (le_of_lt hlt), ?_⟩
      · rcases hmem with h | h
        · exact Or.inr (by rw [h]; exact List.mem_cons_self t ts)
        · exact Or.inr (List.mem_cons_of_mem t h)
      · intro q hq
        rcases List.mem_cons.mp hq with h | h
        · subst h
          exact hle
        · exact hall q h
    · next hge =>
      obtain ⟨hmem, hle, hall⟩ := ih best
      refine ⟨?_, hle, ?_⟩
      · rcases hmem with h | h
        · exact Or.inl h
        · exact Or.inr (List.mem_cons_of_mem t h)
      · intro q hq
        rcases List.mem_cons.mp hq with h | h
        · subst h
          exact le_trans hle (le_of_not_lt hge)
        · exact hall q h

theorem assign_one_of_best1 (turns : List Turn) (seg : TransSeg) (sp : String)
    (h : (best_overlap_loop seg turns).1 = some sp) :
    assign_one turns seg = { seg with speaker := some (or_speaker_default sp) } := by
  simp only [assign_one]
  rw [h]

theorem assign_one_of_best2 (turns : List Turn) (seg : TransSeg) (sp : String)
    (h1 : (best_overlap_loop seg turns).1 = none)
    (h2 : midpoint_speaker ((seg.start + seg.stop) / 2) turns = some sp) :
    assign_one turns seg = { seg with speaker := some (or_speaker_default sp) } := by
  simp only [assign_one]
  rw [h1, h2]

theorem assign_one_of_best3 (t : Turn) (ts : List Turn) (seg : TransSeg)
    (h1 : (best_overlap_loop seg (t :: ts)).1 = none)
    (h2 : midpoint_speaker ((seg.start + seg.stop) / 2) (t :: ts) = none) :
    assign_one (t :: ts) seg = { seg with speaker := some (or_speaker_default (py_min_by ((seg.start + seg.stop) / 2) t ts).speaker) } := by
  simp only [assign_one]
  rw [h1, h2]

/-- CLAIM C5.  For every transcript segment and non-empty diarization turn
list, speaker assignment picks a turn with maximum temporal overlap when
some turn overlaps positively; with no overlapping turn it falls back to
the first turn whose interval contains the segment midpoint; and when no
turn contains the midpoint either, it picks a turn minimizing the distance
from either of its endpoints to the segment midpoint
(`or_speaker_default` only replaces a falsy — absent or empty — label by
`SPEAKER_00` and is the identity on the real labels). -/
theorem speaker_overlap_assignment (seg : TransSeg) (turns : List Turn)
    (hne : turns ≠ []) :
    ((∃ spk ∈ turns, 0 < overlap_with seg spk) →
      ∃ spk ∈ turns,
        (∀ q ∈ turns, overlap_with seg q ≤ overlap_with seg spk) ∧
        0 < overlap_with seg spk ∧
        assign_one turns seg
          = { seg with speaker := some (or_speaker_default spk.speaker) }) ∧
    ((∀ q ∈ turns, overlap_with seg q ≤ 0) →
      ∀ sp, midpoint_speaker ((seg.start + seg.stop) / 2) turns = some sp →
        assign_one turns seg = { seg with speaker := some (or_speaker_default sp) }) ∧
    ((∀ q ∈ turns, overlap_with seg q ≤ 0) →
      midpoint_speaker ((seg.start + seg.stop) / 2) turns = none →
      ∃ spk ∈ turns,
        (∀ q ∈ turns, closest_key ((seg.start + seg.stop) / 2) spk
            ≤ closest_key ((seg.start + seg.stop) / 2) q) ∧
        assign_one turns seg
          = { seg with speaker := some (or_speaker_default spk.speaker) }) := by
  refine ⟨?_, ?_, ?_⟩
  · rintro ⟨w, hw, hwpos⟩
    rcases overlap_foldl_cases seg turns (none, 0) with hcase | ⟨spk, hspk, hcase⟩
    · exfalso
      have hle := (overlap_foldl_le seg turns (none, 0)).2 w hw
      rw [hcase] at hle
      exact absurd (lt_of_lt_of_le hwpos hle) (by norm_num)
    · have hloop : best_overlap_loop seg turns = (some spk.speaker, overlap_with seg spk) :=
        hcase
      refine ⟨spk, hspk, ?_, ?_, ?_⟩
      · intro q hq
        have hq2 := (overlap_foldl_le seg turns (none, 0)).2 q hq
        rw [hcase] at hq2
        exact hq2
      · have hw2 := (overlap_foldl_le seg turns (none, 0)).2 w hw
        rw [hcase] at hw2
        exact lt_of_lt_of_le hwpos hw2
      · exact assign_one_of_best1 turns seg spk.speaker (by rw [hloop])
  · intro hall sp hsp
    have h1 : (best_overlap_loop seg turns).1 = none := by
      unfold best_overlap_loop
      rw [overlap_foldl_stay seg turns (none, 0) (le_refl 0) hall]
    exact assign_one_of_best2 turns seg sp h1 hsp
  · intro hall hmidnone
    have h1 : (best_overlap_loop seg turns).1 = none := by
      unfold best_overlap_loop
      rw [overlap_foldl_stay seg turns (none, 0) (le_refl 0) hall]
    match turns, hne with
    | t :: ts, _ =>
      obtain ⟨hmem, hle, hrest⟩ := py_min_by_spec ((seg.start + seg.stop) / 2) ts t
      refine ⟨py_min_by ((seg.start + seg.stop) / 2) t ts, ?_, ?_, ?_⟩
      · rcases hmem with h | h
        · rw [h]
          exact List.mem_cons_self t ts
        · exact List.mem_cons_of_mem t h
      · intro q hq
        rcases List.mem_cons.mp hq with h | h
        · subst h
          exact hle
        · exact hrest q h
      · exact assign_one_of_best3 t ts seg h1 hmidnone

/-- CLAIM C5 witness: segment `(2.0, 3.5)` against turns
`[(0,3,A),(3,6,B)]` (overlaps 1.0 s and 0.5 s) is assigned `A`. -/
theorem speaker_overlap_assignment_witness :
    assign_one [⟨0, 3, "A"⟩, ⟨3, 6, "B"⟩] ⟨2, 3.5, "x", none⟩
        = { (⟨2, 3.5, "x", none⟩ : TransSeg) with speaker := some "A" } ∧
    (∃ spk ∈ [(⟨0, 3, "A"⟩ : Turn), ⟨3, 6, "B"⟩],
      (∀ q ∈ [(⟨0, 3, "A"⟩ : Turn), ⟨3, 6, "B"⟩],
        overlap_with ⟨2, 3.5, "x", none⟩ q ≤ overlap_with ⟨2, 3.5, "x", none⟩ spk) ∧
      0 < overlap_with ⟨2, 3.5, "x", none⟩ spk ∧
      assign_one [⟨0, 3, "A"⟩, ⟨3, 6, "B"⟩] ⟨2, 3.5, "x", none⟩
        = { (⟨2, 3.5, "x", none⟩ : TransSeg) with
            speaker := some (or_speaker_default spk.speaker) }) := by
  have hA : overlap_with ⟨2, 3.5, "x", none⟩ ⟨0, 3, "A"⟩ = 1 := by
    norm_num [overlap_with, min_def, max_def]
  have hB : overlap_with ⟨2, 3.5, "x", none⟩ ⟨3, 6, "B"⟩ = 1/2 := by
    norm_num [overlap_with, min_def, max_def]
  have hmain := (speaker_overlap_assignment ⟨2, 3.5, "x", none⟩
      [⟨0, 3, "A"⟩, ⟨3, 6, "B"⟩] (by simp)).1
    ⟨⟨0, 3, "A"⟩, by simp, by rw [hA]; norm_num⟩
  refine ⟨?_, hmain⟩
  obtain ⟨spk, hspk, hmax, hpos, heq⟩ := hmain
  rcases List.mem_cons.mp hspk with h | h
  · subst h
    rw [heq]
    rfl
  · exfalso
    have hBmem : spk = ⟨3, 6, "B"⟩ := by simpa using h
    subst hBmem
    have := hmax ⟨0, 3, "A"⟩ (by simp)
    rw [hA, hB] at this
    norm_num at this

theorem or_speaker_default_ne_empty (o : Option String) : or_speaker_default o ≠ "" := by
  cases o with
  | none => simp [or_speaker_default]
  | some sp =>
    show (if sp = "" then "SPEAKER_00" else sp) ≠ ""
    split
    · decide
    · next h => exact h

/-- CLAIM C6 counterexample.  When diarization produced zero turns,
`assign_speakers_to_segments` returns the transcription segments unchanged,
i.e. without any speaker assigned — no `SPEAKER_00` fallback is applied to
the externally visible segments. -/
theorem speaker_default_cex :
    assign_speakers_to_segments [⟨0, 1, "hi", none⟩] [] = [⟨0, 1, "hi", none⟩] ∧
    ((⟨0, 1, "hi", none⟩ : TransSeg)).speaker = none :=
  ⟨rfl, rfl⟩

/-- CLAIM C6 (amended).  When diarization produced at least one turn, every
segment returned by speaker assignment carries a non-empty speaker label
(`SPEAKER_00` substituting for an absent or empty one); when diarization
produced zero turns, the segments are passed through unchanged, without any
speaker field (downstream consumers read the label with a
`get("speaker", "SPEAKER_00")` default instead). -/
theorem speaker_always_assigned (segs : List TransSeg) (turns : List Turn) :
    (turns = [] → assign_speakers_to_segments segs turns = segs) ∧
    (turns ≠ [] → ∀ out ∈ assign_speakers_to_segments segs turns,
      ∃ sp, out.speaker = some sp ∧ sp ≠ "") := by
  constructor
  · intro h
    subst h
    rfl
  · intro hne out hout
    cases turns with
    | nil => exact absurd rfl hne
    | cons t ts =>
      unfold assign_speakers_to_segments at hout
      rw [if_neg (by simp)] at hout
      obtain ⟨seg, hseg, hmap⟩ := List.mem_map.mp hout
      have ho : ∃ o, assign_one (t :: ts) seg
          = { seg with speaker := some (or_speaker_default o) } := by
        simp only [assign_one]
        exact ⟨_, rfl⟩
      obtain ⟨o, ho⟩ := ho
      rw [← hmap, ho]
      exact ⟨or_speaker_default o, rfl, or_speaker_default_ne_empty o⟩

/-! ### Real-valued primitives: cosine similarity, RMS fallback, speaker
profiles.  These model the numpy float computations over `ℝ`; square roots
make them noncomputable, so their concrete witnesses are evaluated by
`simp`/`norm_num` instead of kernel reduction. -/

noncomputable section
open Classical

/-- `np.dot` on two float vectors. -/
def np_dot (a b : List ℝ) : ℝ := (List.zipWith (fun x y => x * y) a b).sum

/-- `np.linalg.norm`: the Euclidean norm. -/
def np_norm (a : List ℝ) : ℝ := Real.sqrt (np_dot a a)

/-- `_cosine_similarity` (`app.py` lines 135-139): guard the zero
denominator, otherwise divide the dot product by the product of norms. -/
def cosine_similarity (a b : List ℝ) : ℝ :=
  let denom := np_norm a * np_norm b
  if denom = 0 then 0 else np_dot a b / denom

/-- CLAIM C10.  The cosine-similarity function is total: whenever either
vector has zero norm (so the denominator vanishes) it returns 0; otherwise
the denominator is provably non-zero and the result is the dot product
divided by the product of the norms — the guarded division never divides
by zero. -/
theorem cosine_similarity_total (a b : List ℝ) :
    ((np_norm a = 0 ∨ np_norm b = 0) → cosine_similarity a b = 0) ∧
    (np_norm a ≠ 0 → np_norm b ≠ 0 →
      np_norm a * np_norm b ≠ 0 ∧
      cosine_similarity a b = np_dot a b / (np_norm a * np_norm b)) := by
  constructor
  · intro h
    have hd : np_norm a * np_norm b = 0 := by
      rcases h with h | h
      · rw [h, zero_mul]
      · rw [h, mul_zero]
    simp only [cosine_similarity]
    rw [if_pos hd]
  · intro ha hb
    have hd : np_norm a * np_norm b ≠ 0 := mul_ne_zero ha hb
    refine ⟨hd, ?_⟩
    simp only [cosine_similarity]
    rw [if_neg hd]

/-- The RMS energy `np.sqrt(np.mean(audio_chunk ** 2))` of the VAD
fallback (`app.py` line 419). -/
def rms (chunk : List ℝ) : ℝ :=
  Real.sqrt ((chunk.map (fun x => x ^ 2)).sum / chunk.length)

/-- `StreamingTranscriber.check_vad` (`app.py` lines 396-421): windows
shorter than 512 samples score 0; otherwise the trailing 512 samples are
scored by the external VAD (`scorer`; `none` models a raised exception),
and on failure the RMS heuristic scores 0.9 above the fixed `0.01`
threshold and 0.1 below. -/
def check_vad (scorer : List ℝ → Option ℝ) (audio_chunk : List ℝ) : ℝ :=
  if audio_chunk.length < 512 then 0
  else
    let window := if 512 < audio_chunk.length then takeLast 512 audio_chunk else audio_chunk
    match scorer window with
    | some p => p
    | none => if rms window > 0.01 then 0.9 else 0.1

/-- CLAIM C9.  `check_vad` returns 0 for every window shorter than 512
samples; when the external scorer raises, the result is 0.9 exactly when
the window's RMS energy exceeds 0.01 and 0.1 otherwise — in particular the
fallback path always returns one of these two values (the Lean embedding
is total, matching the code path that contains no raising operation). -/
theorem check_vad_fallback (scorer : List ℝ → Option ℝ) (chunk : List ℝ) :
    (chunk.length < 512 → check_vad scorer chunk = 0) ∧
    (512 ≤ chunk.length →
      scorer (if 512 < chunk.length then takeLast 512 chunk else chunk) = none →
      ((check_vad scorer chunk = 0.9 ∨ check_vad scorer chunk = 0.1) ∧
       (check_vad scorer chunk = 0.9 ↔
         rms (if 512 < chunk.length then takeLast 512 chunk else chunk) > 0.01))) := by
  constructor
  · intro h
    simp only [check_vad]
    rw [if_pos h]
  · intro hlen hsc
    have hnot : ¬ chunk.length < 512 := not_lt.mpr hlen
    simp only [check_vad]
    rw [if_neg hnot, hsc]
    by_cases hr : rms (if 512 < chunk.length then takeLast 512 chunk else chunk) > 0.01
    · rw [if_pos hr]
      exact ⟨Or.inl rfl, iff_of_true rfl hr⟩
    · rw [if_neg hr]
      refine ⟨Or.inr rfl, iff_of_false (by norm_num) hr⟩

/-- CLAIM C9 witness: with a failing scorer, an all-zero 512-sample window
scores 0.1 (its RMS is 0), and a 100-sample window scores 0. -/
theorem check_vad_fallback_witness :
    check_vad (fun _ => none) (List.replicate 512 (0:ℝ)) = 0.1 ∧
    check_vad (fun _ => none) (List.replicate 100 (0:ℝ)) = 0 := by
  have h := check_vad_fallback (fun _ => none) (List.replicate 512 (0:ℝ))
  have hlen : (List.replicate 512 (0:ℝ)).length = 512 := by
    rw [List.length_replicate]
  have h2 := h.2 (by rw [hlen]) rfl
  have hwin : (if 512 < (List.replicate 512 (0:ℝ)).length
      then takeLast 512 (List.replicate 512 (0:ℝ)) else List.replicate 512 (0:ℝ))
      = List.replicate 512 (0:ℝ) := by
    rw [if_neg (by rw [hlen]; omega)]
  have hrms : rms (List.replicate 512 (0:ℝ)) = 0 := by
    unfold rms
    rw [List.map_replicate, show ((0:ℝ) ^ 2) = 0 by norm_num, List.sum_replicate,
      smul_zero, zero_div, Real.sqrt_zero]
  constructor
  · rcases h2.1 with h9 | h1
    · exfalso
      have h01 := h2.2.mp h9
      rw [hwin, hrms] at h01
      norm_num at h01
    · exact h1
  · exact (check_vad_fallback (fun _ => none) (List.replicate 100 (0:ℝ))).1
      (by rw [List.length_replicate]; omega)

/-- A per-session speaker profile (`app.py` lines 199-205):
`{"id": .., "embedding": .., "count": ..}`; the embedding is the running
centroid. -/
structure SpeakerProfile where
  id : String
  embedding : List ℝ
  count : Nat

/-- Per-session speaker-tracking state (`_get_session_state`,
`app.py` lines 141-146): `{"next_id": 0, "profiles": []}`. -/
structure SpeakerSessionState where
  next_id : Nat
  profiles : List SpeakerProfile

/-- `SPEAKER_SIM_THRESHOLD = 0.82` (`app.py` line 104). -/
def SPEAKER_SIM_THRESHOLD : ℝ := 0.82

/-- The id formatting `f"SPEAKER_{next_id:02d}"` (`app.py` line 199). -/
def format_speaker_id (n : Nat) : String :=
  "SPEAKER_" ++ (if n < 10 then "0" ++ toString n else toString n)

/-- One iteration of the best-profile scan (`app.py` lines 183-187):
replace the candidate only on strictly greater similarity (first maximum
wins). -/
def profile_step (emb : List ℝ) (acc : Option String × ℝ) (p : SpeakerProfile) :
    Option String × ℝ :=
  let sim := cosine_similarity emb p.embedding
  if sim > acc.2 then (some p.id, sim) else acc

/-- The best-profile scan, started from `best_id = None`,
`best_sim = -1.0` (`app.py` lines 181-182). -/
def best_profile_loop (emb : List ℝ) (profiles : List SpeakerProfile) :
    Option String × ℝ :=
  profiles.foldl (profile_step emb) (none, -1)

/-- The centroid update `(centroid*count + emb) / (count + 1)`
(`app.py` line 193), elementwise over the vectors. -/
def running_mean (old : List ℝ) (count : Nat) (emb : List ℝ) : List ℝ :=
  (List.zipWith (fun x y => x + y) (old.map (fun x => (count : ℝ) * x)) emb).map
    (fun x => x / ((count : ℝ) + 1))

/-- The merge loop (`app.py` lines 190-195): update the first profile whose
id equals the best id, leaving all others untouched. -/
def update_profile (emb : List ℝ) (bid : String) : List SpeakerProfile → List SpeakerProfile
  | [] => []
  | p :: ps =>
    if p.id = bid then
      { p with embedding := running_mean p.embedding p.count emb, count := p.count + 1 } :: ps
    else
      p :: update_profile emb bid ps

/-- The body of the `for seg in speaker_segments` loop of
`assign_persistent_speakers` (`app.py` lines 171-207) for one diarization
turn, threading the session state and the per-batch label cache.  `embed`
abstracts `_compute_embedding` (which calls the external pyannote model and
returns `None` on short or empty spans or when embedding is disabled). -/
def process_turn (embed : ℚ → ℚ → Option (List ℝ)) (st : SpeakerSessionState)
    (cache : List (String × String)) (seg : Turn) :
    SpeakerSessionState × List (String × String) × Turn :=
  match (cache.find? (fun kv => kv.1 = seg.speaker)).map Prod.snd with
  | some newId => (st, cache, { seg with speaker := newId })
  | none =>
    match embed seg.start seg.stop with
    | none => (st, cache, seg)
    | some emb =>
      match best_profile_loop emb st.profiles with
      | (some bid, bsim) =>
        if bsim ≥ SPEAKER_SIM_THRESHOLD then
          ({ st with profiles := update_profile emb bid st.profiles },
            cache ++ [(seg.speaker, bid)], { seg with speaker := bid })
        else
          ({ next_id := st.next_id + 1,
             profiles := st.profiles ++ [⟨format_speaker_id st.next_id, emb, 1⟩] },
            cache ++ [(seg.speaker, format_speaker_id st.next_id)],
            { seg with speaker := format_speaker_id st.next_id })
      | (none, _) =>
          ({ next_id := st.next_id + 1,
             profiles := st.profiles ++ [⟨format_speaker_id st.next_id, emb, 1⟩] },
            cache ++ [(seg.speaker, format_speaker_id st.next_id)],
            { seg with speaker := format_speaker_id st.next_id })

/-- `assign_persistent_speakers` (`app.py` lines 164-209): skipped entirely
without a session id, with no turns, or with embedding disabled
(`enabled` merges the first and third guard); otherwise fold
`process_turn` over the turns. -/
def assign_persistent_speakers (embed : ℚ → ℚ → Option (List ℝ)) (enabled : Bool)
    (st : SpeakerSessionState) (segs : List Turn) : SpeakerSessionState × List Turn :=
  if enabled = false ∨ segs = [] then (st, segs)
  else
    let out := segs.foldl
      (fun (acc : SpeakerSessionState × List (String × String) × List Turn) seg =>
        let r := process_turn embed acc.1 acc.2.1 seg
        (r.1, r.2.1, acc.2.2 ++ [r.2.2]))
      (st, [], [])
    (out.1, out.2.2)

theorem profile_foldl_stay (emb : List ℝ) :
    ∀ (ps : List SpeakerProfile) (acc : Option String × ℝ),
      (∀ q ∈ ps, cosine_similarity emb q.embedding ≤ acc.2) →
      ps.foldl (profile_step emb) acc = acc := by
  intro ps
  induction ps with
  | nil => exact fun acc _ => rfl
  | cons r rs ih =>
    intro acc hall
    simp only [List.foldl_cons]
    have hstep : profile_step emb acc r = acc := by
      unfold profile_step
      dsimp only
      rw [if_neg (not_lt.mpr (hall r (List.mem_cons_self r rs)))]
    rw [hstep]
    exact ih acc (fun q hq => hall q (List.mem_cons_of_mem r hq))

theorem profile_foldl_strict_max (emb : List ℝ) :
    ∀ (ps : List SpeakerProfile) (acc : Option String × ℝ) (p : SpeakerProfile),
      p ∈ ps →
      (ps.map SpeakerProfile.id).Nodup →
      (∀ q ∈ ps, q.id ≠ p.id →
        cosine_similarity emb q.embedding < cosine_similarity emb p.embedding) →
      acc.2 < cosine_similarity emb p.embedding →
      ps.foldl (profile_step emb) acc = (some p.id, cosine_similarity emb p.embedding) := by
  intro ps
  induction ps with
  | nil => exact fun acc p hp => absurd hp (List.not_mem_nil p)
  | cons r rs ih =>
    intro acc p hp hnd hmax hacc
    simp only [List.map_cons, List.nodup_cons] at hnd
    obtain ⟨hrn, hnd2⟩ := hnd
    simp only [List.foldl_cons]
    rcases List.mem_cons.mp hp with hcase | hcase
    · subst hcase
      have hstep : profile_step emb acc p = (some p.id, cosine_similarity emb p.embedding) := by
        unfold profile_step
        dsimp only
        rw [if_pos hacc]
      rw [hstep]
      apply profile_foldl_stay emb rs
      intro q hq
      have hqid : q.id ≠ p.id := by
        intro hcontra
        exact hrn (hcontra ▸ List.mem_map_of_mem SpeakerProfile.id hq)
      exact le_of_lt (hmax q (List.mem_cons_of_mem p hq) hqid)
    · have hpid : p.id ∈ rs.map SpeakerProfile.id := List.mem_map_of_mem SpeakerProfile.id hcase
      have hrid : r.id ≠ p.id := fun hcontra => hrn (hcontra ▸ hpid)
      have hrlt : cosine_similarity emb r.embedding < cosine_similarity emb p.embedding :=
        hmax r (List.mem_cons_self r rs) hrid
      have hacc2 : (profile_step emb acc r).2 < cosine_similarity emb p.embedding := by
        unfold profile_step
        dsimp only
        split
        · exact hrlt
        · exact hacc
      exact ih (profile_step emb acc r) p hcase hnd2
        (fun q hq hqid => hmax q (List.mem_cons_of_mem r hq) hqid) hacc2

theorem profile_foldl_cases (emb : List ℝ) :
    ∀ (ps : List SpeakerProfile) (acc : Option String × ℝ),
      ps.foldl (profile_step emb) acc = acc ∨
      ∃ q ∈ ps, ps.foldl (profile_step emb) acc
        = (some q.id, cosine_similarity emb q.embedding) := by
  intro ps
  induction ps with
  | nil => exact fun acc => Or.inl rfl
  | cons r rs ih =>
    intro acc
    simp only [List.foldl_cons]
    unfold profile_step
    dsimp only
    split
    · rcases ih (some r.id, cosine_similarity emb r.embedding) with h | ⟨q, hq, h⟩
      · exact Or.inr ⟨r, List.mem_cons_self r rs, h⟩
      · exact Or.inr ⟨q, List.mem_cons_of_mem r hq, h⟩
    · rcases ih acc with h | ⟨q, hq, h⟩
      · exact Or.inl h
      · exact Or.inr ⟨q, List.mem_cons_of_mem r hq, h⟩

theorem update_profile_spec (emb : List ℝ) :
    ∀ (profiles : List SpeakerProfile) (p : SpeakerProfile),
      p ∈ profiles → (profiles.map SpeakerProfile.id).Nodup →
      ({ id := p.id, embedding := running_mean p.embedding p.count emb,
          count := p.count + 1 } : SpeakerProfile) ∈ update_profile emb p.id profiles ∧
      ∀ q ∈ profiles, q.id ≠ p.id → q ∈ update_profile emb p.id profiles := by
  intro profiles
  induction profiles with
  | nil => exact fun p hp => absurd hp (List.not_mem_nil p)
  | cons r rs ih =>
    intro p hp hnd
    simp only [List.map_cons, List.nodup_cons] at hnd
    obtain ⟨hrn, hnd2⟩ := hnd
    unfold update_profile
    by_cases hr : r.id = p.id
    · rw [if_pos hr]
      have hrp : r = p := by
        rcases List.mem_cons.mp hp with h | h
        · exact h.symm
        · exact absurd (hr ▸ List.mem_map_of_mem SpeakerProfile.id h) hrn
      subst hrp
      refine ⟨List.mem_cons_self _ _, ?_⟩
      intro q hq hqid
      rcases List.mem_cons.mp hq with h | h
      · exact absurd (congrArg SpeakerProfile.id h) hqid
      · exact List.mem_cons_of_mem _ h
    · rw [if_neg hr]
      have hp2 : p ∈ rs := by
        rcases List.mem_cons.mp hp with h | h
        · exact absurd (congrArg SpeakerProfile.id h.symm) hr
        · exact h
      obtain ⟨h1, h2⟩ := ih p hp2 hnd2
      refine ⟨List.mem_cons_of_mem r h1, ?_⟩
      intro q hq hqid
      rcases List.mem_cons.mp hq with h | h
      · subst h
        exact List.mem_cons_self _ _
      · exact List.mem_cons_of_mem r (h2 q h hqid)

theorem process_turn_merge (embed : ℚ → ℚ → Option (List ℝ)) (st : SpeakerSessionState)
    (cache : List (String × String)) (seg : Turn) (emb : List ℝ) (bid : String) (bsim : ℝ)
    (hcache : cache.find? (fun kv => kv.1 = seg.speaker) = none)
    (hemb : embed seg.start seg.stop = some emb)
    (hloop : best_profile_loop emb st.profiles = (some bid, bsim))
    (hth : bsim ≥ SPEAKER_SIM_THRESHOLD) :
    process_turn embed st cache seg =
      ({ st with profiles := update_profile emb bid st.profiles },
        cache ++ [(seg.speaker, bid)], { seg with speaker := bid }) := by
  simp only [process_turn]
  rw [hcache, hemb]
  simp only [Option.map_none', hloop]
  rw [if_pos hth]

theorem process_turn_new_none (embed : ℚ → ℚ → Option (List ℝ)) (st : SpeakerSessionState)
    (cache : List (String × String)) (seg : Turn) (emb : List ℝ) (bsim : ℝ)
    (hcache : cache.find? (fun kv => kv.1 = seg.speaker) = none)
    (hemb : embed seg.start seg.stop = some emb)
    (hloop : best_profile_loop emb st.profiles = (none, bsim)) :
    process_turn embed st cache seg =
      ({ next_id := st.next_id + 1,
         profiles := st.profiles ++ [⟨format_speaker_id st.next_id, emb, 1⟩] },
        cache ++ [(seg.speaker, format_speaker_id st.next_id)],
        { seg with speaker := format_speaker_id st.next_id }) := by
  simp only [process_turn]
  rw [hcache, hemb]
  simp only [Option.map_none', hloop]

theorem process_turn_new_below (embed : ℚ → ℚ → Option (List ℝ)) (st : SpeakerSessionState)
    (cache : List (String × String)) (seg : Turn) (emb : List ℝ) (bid : String) (bsim : ℝ)
    (hcache : cache.find? (fun kv => kv.1 = seg.speaker) = none)
    (hemb : embed seg.start seg.stop = some emb)
    (hloop : best_profile_loop emb st.profiles = (some bid, bsim))
    (hth : ¬ bsim ≥ SPEAKER_SIM_THRESHOLD) :
    process_turn embed st cache seg =
      ({ next_id := st.next_id + 1,
         profiles := st.profiles ++ [⟨format_speaker_id st.next_id, emb, 1⟩] },
        cache ++ [(seg.speaker, format_speaker_id st.next_id)],
        { seg with speaker := format_speaker_id st.next_id }) := by
  simp only [process_turn]
  rw [hcache, hemb]
  simp only [Option.map_none', hloop]
  rw [if_neg hth]

/-- CLAIM C3.  For a new diarization turn whose raw label is not cached and
whose embedding is computed: if some stored profile's centroid has maximal
cosine similarity against the new embedding (strictly above every
differently-labelled profile) and that maximum meets the 0.82 threshold,
that profile's id is assigned to the turn, its centroid becomes the running
mean `(centroid*count + emb)/(count+1)`, its count is incremented, the
other profiles survive unchanged and `next_id` does not move; otherwise —
every stored profile strictly below the threshold — a fresh sequential id
`SPEAKER_{next_id:02d}` is allocated and assigned, `next_id` is
incremented, and a new profile with the new embedding as centroid and
count 1 is appended.  Profile ids are assumed pairwise distinct, which the
allocation discipline maintains. -/
theorem speaker_profile_update (embed : ℚ → ℚ → Option (List ℝ))
    (st : SpeakerSessionState) (cache : List (String × String)) (seg : Turn) (emb : List ℝ)
    (hcache : cache.find? (fun kv => kv.1 = seg.speaker) = none)
    (hemb : embed seg.start seg.stop = some emb)
    (hids : (st.profiles.map SpeakerProfile.id).Nodup) :
    (∀ p ∈ st.profiles,
      SPEAKER_SIM_THRESHOLD ≤ cosine_similarity emb p.embedding →
      (∀ q ∈ st.profiles, q.id ≠ p.id →
        cosine_similarity emb q.embedding < cosine_similarity emb p.embedding) →
      (process_turn embed st cache seg).2.2.speaker = p.id ∧
      (process_turn embed st cache seg).1.next_id = st.next_id ∧
      ({ id := p.id, embedding := running_mean p.embedding p.count emb,
          count := p.count + 1 } : SpeakerProfile)
        ∈ (process_turn embed st cache seg).1.profiles ∧
      (∀ q ∈ st.profiles, q.id ≠ p.id →
        q ∈ (process_turn embed st cache seg).1.profiles)) ∧
    ((∀ q ∈ st.profiles, cosine_similarity emb q.embedding < SPEAKER_SIM_THRESHOLD) →
      (process_turn embed st cache seg).2.2.speaker = format_speaker_id st.next_id ∧
      (process_turn embed st cache seg).1.next_id = st.next_id + 1 ∧
      (process_turn embed st cache seg).1.profiles
        = st.profiles ++ [⟨format_speaker_id st.next_id, emb, 1⟩]) := by
  constructor
  · intro p hp hth hmax
    have hstart : ((none, -1) : Option String × ℝ).2 < cosine_similarity emb p.embedding := by
      dsimp only
      have : (-1 : ℝ) < SPEAKER_SIM_THRESHOLD := by
        unfold SPEAKER_SIM_THRESHOLD
        norm_num
      exact lt_of_lt_of_le this hth
    have hloop : best_profile_loop emb st.profiles
        = (some p.id, cosine_similarity emb p.embedding) :=
      profile_foldl_strict_max emb st.profiles (none, -1) p hp hids hmax hstart
    have heq := process_turn_merge embed st cache seg emb p.id
      (cosine_similarity emb p.embedding) hcache hemb hloop hth
    rw [heq]
    obtain ⟨hmem, hpres⟩ := update_profile_spec emb st.profiles p hp hids
    exact ⟨rfl, rfl, hmem, hpres⟩
  · intro hall
    rcases profile_foldl_cases emb st.profiles (none, -1) with hres | ⟨q, hq, hres⟩
    · have heq := process_turn_new_none embed st cache seg emb (-1) hcache hemb hres
      rw [heq]
      exact ⟨rfl, rfl, rfl⟩
    · have hlt : ¬ cosine_similarity emb q.embedding ≥ SPEAKER_SIM_THRESHOLD :=
        not_le.mpr (hall q hq)
      have heq := process_turn_new_below embed st cache seg emb q.id
        (cosine_similarity emb q.embedding) hcache hemb hres hlt
      rw [heq]
      exact ⟨rfl, rfl, rfl⟩

theorem sim_nine_tenths :
    cosine_similarity [9, Real.sqrt 19] [1, 0] = 9 / 10 := by
  have h19 : Real.sqrt 19 * Real.sqrt 19 = 19 := Real.mul_self_sqrt (by norm_num)
  have hd1 : np_dot [9, Real.sqrt 19] [9, Real.sqrt 19] = 100 := by
    simp only [np_dot, List.zipWith, List.sum_cons, List.sum_nil]
    rw [h19]
    norm_num
  have hd2 : np_dot [9, Real.sqrt 19] [1, 0] = 9 := by
    simp only [np_dot, List.zipWith, List.sum_cons, List.sum_nil]
    norm_num
  have hd3 : np_dot [1, 0] [1, 0] = 1 := by
    simp only [np_dot, List.zipWith, List.sum_cons, List.sum_nil]
    norm_num
  have hn1 : np_norm [9, Real.sqrt 19] = 10 := by
    unfold np_norm
    rw [hd1, show (100 : ℝ) = 10 ^ 2 by norm_num, Real.sqrt_sq (by norm_num)]
  have hn2 : np_norm [1, 0] = 1 := by
    unfold np_norm
    rw [hd3, Real.sqrt_one]
  simp only [cosine_similarity]
  rw [hn1, hn2, hd2, if_neg (by norm_num)]
  norm_num

theorem sim_one_half :
    cosine_similarity [1, Real.sqrt 3] [1, 0] = 1 / 2 := by
  have h3 : Real.sqrt 3 * Real.sqrt 3 = 3 := Real.mul_self_sqrt (by norm_num)
  have hd1 : np_dot [1, Real.sqrt 3] [1, Real.sqrt 3] = 4 := by
    simp only [np_dot, List.zipWith, List.sum_cons, List.sum_nil]
    rw [h3]
    norm_num
  have hd2 : np_dot [1, Real.sqrt 3] [1, 0] = 1 := by
    simp only [np_dot, List.zipWith, List.sum_cons, List.sum_nil]
    norm_num
  have hd3 : np_dot [1, 0] [1, 0] = 1 := by
    simp only [np_dot, List.zipWith, List.sum_cons, List.sum_nil]
    norm_num
  have hn1 : np_norm [1, Real.sqrt 3] = 2 := by
    unfold np_norm
    rw [hd1, show (4 : ℝ) = 2 ^ 2 by norm_num, Real.sqrt_sq (by norm_num)]
  have hn2 : np_norm [1, 0] = 1 := by
    unfold np_norm
    rw [hd3, Real.sqrt_one]
  simp only [cosine_similarity]
  rw [hn1, hn2, hd2, if_neg (by norm_num)]
  norm_num

/-- CLAIM C3 witness.  Against a session holding one profile
(`SPEAKER_00`, centroid `[1,0]`, count 1): a turn whose embedding
`[9, sqrt 19]` has cosine similarity 0.9 with the centroid is assigned
`SPEAKER_00` and the merged profile's count becomes 2; a turn whose
embedding `[1, sqrt 3]` has similarity 0.5 is assigned the freshly
allocated distinct id `SPEAKER_01` instead, with `next_id` advanced. -/
theorem speaker_profile_update_witness :
    ((process_turn (fun _ _ => some [9, Real.sqrt 19])
        ⟨1, [⟨"SPEAKER_00", [1, 0], 1⟩]⟩ [] ⟨0, 1, "RAW_A"⟩).2.2.speaker = "SPEAKER_00" ∧
      (⟨"SPEAKER_00", running_mean [1, 0] 1 [9, Real.sqrt 19], 2⟩ : SpeakerProfile)
        ∈ (process_turn (fun _ _ => some [9, Real.sqrt 19])
            ⟨1, [⟨"SPEAKER_00", [1, 0], 1⟩]⟩ [] ⟨0, 1, "RAW_A"⟩).1.profiles) ∧
    ((process_turn (fun _ _ => some [1, Real.sqrt 3])
        ⟨1, [⟨"SPEAKER_00", [1, 0], 1⟩]⟩ [] ⟨0, 1, "RAW_A"⟩).2.2.speaker = "SPEAKER_01" ∧
      "SPEAKER_01" ≠ "SPEAKER_00" ∧
      (process_turn (fun _ _ => some [1, Real.sqrt 3])
        ⟨1, [⟨"SPEAKER_00", [1, 0], 1⟩]⟩ [] ⟨0, 1, "RAW_A"⟩).1.next_id = 2) := by
  constructor
  · have hmerge := (speaker_profile_update (fun _ _ => some [9, Real.sqrt 19])
        ⟨1, [⟨"SPEAKER_00", [1, 0], 1⟩]⟩ [] ⟨0, 1, "RAW_A"⟩ [9, Real.sqrt 19]
        rfl rfl (by simp)).1 ⟨"SPEAKER_00", [1, 0], 1⟩ (by simp)
      (by
        show SPEAKER_SIM_THRESHOLD ≤ cosine_similarity [9, Real.sqrt 19] [1, 0]
        rw [sim_nine_tenths]
        unfold SPEAKER_SIM_THRESHOLD
        norm_num)
      (by
        intro q hq hne
        simp only [List.mem_singleton] at hq
        subst hq
        exact absurd rfl hne)
    exact ⟨hmerge.1, hmerge.2.2.1⟩
  · have hnew := (speaker_profile_update (fun _ _ => some [1, Real.sqrt 3])
        ⟨1, [⟨"SPEAKER_00", [1, 0], 1⟩]⟩ [] ⟨0, 1, "RAW_A"⟩ [1, Real.sqrt 3]
        rfl rfl (by simp)).2
      (by
        intro q hq
        simp only [List.mem_singleton] at hq
        subst hq
        show cosine_similarity [1, Real.sqrt 3] [1, 0] < SPEAKER_SIM_THRESHOLD
        rw [sim_one_half]
        unfold SPEAKER_SIM_THRESHOLD
        norm_num)
    exact ⟨hnew.1, by decide, hnew.2.1⟩

end

end AsrStreaming
